import Mathlib

/-!
Verification development for the diffx Go package: a shallow embedding of the
diff engine (Myers middle-snake core, histogram driver, frequency
preprocessor with index remap, and the boundary-shifting postprocessor),
together with theorems settling the specification claims.

Modelling conventions:
* Go `int` is modelled by `Int`; machine overflow is irrelevant at the sizes
  the claims touch, and Go's 64-bit FNV hash arithmetic is taken mod `2 ^ 64`
  explicitly.
* A Go slice read `s[i]` panics when `i` is out of bounds; fallible code runs
  in `Except Err` with `Err.oob` standing for that runtime panic.
* Go `for` loops without a structural bound are given explicit fuel; running
  out of fuel yields `Err.fuelOut` (the source would spin or needs more
  iterations than supplied).  All fuels used by the drivers are generous
  upper bounds for the concrete inputs evaluated in the theorems.
* `float64` appears in two places of the source: the auto cost limit
  (`math.Sqrt n * math.Sqrt m / 4`, floored) and the histogram anchor score.
  The former is modelled with `Nat.sqrt (n * m) / 4` (both sides are below
  the 256 floor for every input in this development, so the max with 256
  coincides with Go); the latter is modelled with exact rationals `ℚ`.
-/

namespace Diffx

/-- Runtime failure model: `oob` is a Go slice-index panic, `fuelOut` marks a
source loop whose fuel ran out (unbounded or excessively long iteration). -/
inductive Err where
  | oob
  | fuelOut
deriving DecidableEq

/-- Monad for the fallible parts of the pipeline. -/
abbrev DiffM (α : Type) := Except Err α

/-- Kernel-reducible decidable equality on `Except`, so that concrete
pipeline runs can be settled by `decide`. -/
instance {ε α : Type} [DecidableEq ε] [DecidableEq α] :
    DecidableEq (Except ε α) :=
  fun a b =>
    match a, b with
    | .ok x, .ok y =>
        match decEq x y with
        | isTrue h => isTrue (congrArg Except.ok h)
        | isFalse h => isFalse fun hh => h (Except.ok.inj hh)
    | .error x, .error y =>
        match decEq x y with
        | isTrue h => isTrue (congrArg Except.error h)
        | isFalse h => isFalse fun hh => h (Except.error.inj hh)
    | .ok _, .error _ => isFalse fun hh => Except.noConfusion hh
    | .error _, .ok _ => isFalse fun hh => Except.noConfusion hh

/-- Checked list read at a (possibly negative) index, mirroring Go's panicking
slice access. -/
def getl {α : Type} (l : List α) (i : Int) : DiffM α :=
  if h : 0 ≤ i ∧ i.toNat < l.length then .ok (l.get ⟨i.toNat, h.2⟩)
  else .error .oob

/-- Checked list write, mirroring Go's panicking slice element assignment. -/
def setl {α : Type} (l : List α) (i : Int) (v : α) : DiffM (List α) :=
  if 0 ≤ i ∧ i.toNat < l.length then .ok (l.set i.toNat v)
  else .error .oob

/-- UTF-8 bytes of one character, as Go's `[]byte(string)` produces them. -/
def utf8Bytes (c : Char) : List Nat :=
  let n := c.toNat
  if n < 0x80 then [n]
  else if n < 0x800 then [0xC0 + n / 0x40, 0x80 + n % 0x40]
  else if n < 0x10000 then
    [0xE0 + n / 0x1000, 0x80 + (n / 0x40) % 0x40, 0x80 + n % 0x40]
  else
    [0xF0 + n / 0x40000, 0x80 + (n / 0x1000) % 0x40,
      0x80 + (n / 0x40) % 0x40, 0x80 + n % 0x40]

/-- 64-bit FNV-1a over a byte list (`hash/fnv`, `New64a`), with the 64-bit
wraparound written as an explicit `% 2 ^ 64`. -/
def fnv1a (bytes : List Nat) : Nat :=
  bytes.foldl (fun h b => ((h ^^^ b) * 1099511628211) % (2 ^ 64))
    14695981039346656037

/-- The `Element` interface.  `str` is the library's `StringElement`; `other`
stands for any user-supplied element of a different concrete type, carrying
the value its `Hash` method returns. -/
inductive Element where
  | str (s : String)
  | other (h : Nat)
deriving DecidableEq

instance : Inhabited Element := ⟨.str ""⟩

/-- `Hash`: FNV-1a of the UTF-8 bytes for `StringElement`; for a foreign
element, whatever its own implementation returns. -/
def Element.hash : Element → Nat
  | .str s => fnv1a (s.data.flatMap utf8Bytes)
  | .other h => h

/-- `StringElement.Equal`: a type assertion on the other element, then plain
string equality; the assertion fails on any non-`StringElement`.  A foreign
element is modelled as comparing equal only to a foreign element with the
same payload (its own `Equal` is outside this repository). -/
def Element.equal : Element → Element → Bool
  | .str s, .str o => s == o
  | .str _, _ => false
  | .other h, .other h2 => h == h2
  | .other _, _ => false

/-- Whether an element is a `StringElement` (the type assertion's success). -/
def Element.isStr : Element → Bool
  | .str _ => true
  | _ => false

/-- `toElements`: wrap strings as `StringElement`s. -/
def toElements (strs : List String) : List Element :=
  strs.map Element.str

/-- `OpType`. -/
inductive OpType where
  | Equal
  | Insert
  | Delete
deriving DecidableEq

/-- `DiffOp`: one edit operation with half-open index ranges (Go field
`Type` is named `ty` here). -/
structure DiffOp where
  ty : OpType
  aStart : Int
  aEnd : Int
  bStart : Int
  bEnd : Int
deriving DecidableEq

/-- The resolved option record (`options`), including the
`anchorElimination` field used by `histogram.go` and `WithAnchorElimination`. -/
structure options where
  useHeuristic : Bool
  forceMinimal : Bool
  costLimit : Int
  preprocessing : Bool
  postprocessing : Bool
  anchorElimination : Bool
deriving DecidableEq

/-- `defaultOptions`. -/
def defaultOptions : options :=
  ⟨true, false, 0, true, true, true⟩

/-- The six recognized `Option` constructors (`WithHeuristic`,
`WithMinimal`, `WithCostLimit`, `WithPreprocessing`, `WithPostprocessing`,
`WithAnchorElimination`). -/
inductive OptSetter where
  | withHeuristic (enabled : Bool)
  | withMinimal (minimal : Bool)
  | withCostLimit (n : Int)
  | withPreprocessing (enabled : Bool)
  | withPostprocessing (enabled : Bool)
  | withAnchorElimination (enabled : Bool)

/-- Effect of one `Option` on the record.  `WithMinimal` additionally clears
`useHeuristic` when enabling, exactly as the source does. -/
def applyOpt (o : options) : OptSetter → options
  | .withHeuristic b => { o with useHeuristic := b }
  | .withMinimal b =>
      if b then { o with forceMinimal := b, useHeuristic := false }
      else { o with forceMinimal := b }
  | .withCostLimit n => { o with costLimit := n }
  | .withPreprocessing b => { o with preprocessing := b }
  | .withPostprocessing b => { o with postprocessing := b }
  | .withAnchorElimination b => { o with anchorElimination := b }

/-- A recognized option set: the `Option`s applied left to right over the
defaults, as the variadic `Diff(a, b, opts...)` entry points do. -/
def applyOpts (l : List OptSetter) : options :=
  l.foldl applyOpt defaultOptions

/-- The merge condition of `mergeAdjacentOps` / `mergeOps`: same type and
touching in both coordinates. -/
def canMerge (current op : DiffOp) : Bool :=
  current.ty == op.ty && current.aEnd == op.aStart && current.bEnd == op.bStart

/-- The accumulation loop shared verbatim by `mergeAdjacentOps` (filter.go)
and `mergeOps` (the preprocessor file): `current` absorbs each mergeable
successor and is emitted when the next op cannot merge. -/
def mergeAux (current : DiffOp) : List DiffOp → List DiffOp
  | [] => [current]
  | op :: rest =>
      if canMerge current op then
        mergeAux ⟨current.ty, current.aStart, op.aEnd, current.bStart, op.bEnd⟩ rest
      else
        current :: mergeAux op rest

/-- `mergeAdjacentOps`: merge consecutive operations of the same type whose
ranges touch in both coordinates. -/
def mergeAdjacentOps (ops : List DiffOp) : List DiffOp :=
  match ops with
  | [] => ops
  | [_] => ops
  | first :: rest => mergeAux first rest

/-- `mergeOps`: the preprocessor file's own copy of the same loop. -/
def mergeOps (ops : List DiffOp) : List DiffOp :=
  match ops with
  | [] => ops
  | [_] => ops
  | first :: rest => mergeAux first rest

/-- Go slice expression `l[i:j]` for the in-bounds indexes the reconstruction
uses (out-of-range ends are clamped rather than panicking; every theorem
below applies it to valid ranges only). -/
def sliceGo {α : Type} (l : List α) (i j : Int) : List α :=
  (l.take j.toNat).drop i.toNat

/-- The reconstruction map of the spec (the test helper `applyDiff`): take
`A[aStart:aEnd]` for Equal, `B[bStart:bEnd]` for Insert, skip Delete. -/
def applyOps (a b : List Element) (ops : List DiffOp) : List Element :=
  ops.foldl
    (fun acc op =>
      match op.ty with
      | .Equal => acc ++ sliceGo a op.aStart op.aEnd
      | .Insert => acc ++ sliceGo b op.bStart op.bEnd
      | .Delete => acc)
    []

/-- How many Equal/Delete ops cover position `i` of A (claim-side coverage
count, from the spec's partition invariant). -/
def coverCountA (ops : List DiffOp) (i : Int) : Nat :=
  ops.countP fun op =>
    (op.ty == OpType.Equal || op.ty == OpType.Delete)
      && decide (op.aStart ≤ i) && decide (i < op.aEnd)

/-- How many Equal/Insert ops cover position `j` of B (claim-side). -/
def coverCountB (ops : List DiffOp) (j : Int) : Nat :=
  ops.countP fun op =>
    (op.ty == OpType.Equal || op.ty == OpType.Insert)
      && decide (op.bStart ≤ j) && decide (j < op.bEnd)

/-- Claim-side contiguity check: each op ends where the next starts, in both
coordinates. -/
def contiguous : List DiffOp → Bool
  | [] => true
  | [_] => true
  | p :: q :: rest =>
      (p.aEnd == q.aStart) && (p.bEnd == q.bStart) && contiguous (q :: rest)

/-! ## Preprocessor (`filterConfusingElements`, `filterSequence`,
`indexMapping.mapOps`) -/

/-- `elementClass`. -/
inductive elementClass where
  | keep
  | discard
  | provisional
deriving DecidableEq

/-- A hash-frequency map realised as a counting function (Go builds a
`map[uint64]int`; only point lookups of it occur). -/
def freqOf (l : List Element) (h : Nat) : Nat :=
  l.countP fun e => e.hash == h

/-- Classification of one sequence against the two frequency maps: `discard`
when the hash is absent from the other side, `provisional` when the combined
frequency exceeds the threshold, `keep` otherwise. -/
def classify (self _other : List Element) (inOther : Nat → Bool)
    (combined : Nat → Nat) (threshold : Nat) : List elementClass :=
  self.map fun e =>
    let h := e.hash
    if inOther h = false then .discard
    else if combined h > threshold then .provisional
    else .keep

/-- `filterSequence`: keep `keep` elements, keep `provisional` elements only
when an immediate neighbour is `keep`, drop `discard`; record the original
index of each emitted element.  `classes` has the same length as `elems` at
the one call site (it is built by mapping over `elems`). -/
def filterSequence (elems : List Element) (classes : List elementClass) :
    List Element × List Int :=
  (List.range classes.length).foldl
    (fun acc i =>
      match classes.getD i .discard with
      | .keep => (acc.1 ++ [elems.getD i default], acc.2 ++ [(i : Int)])
      | .provisional =>
          let atStart := i == 0
          let atEnd := i == classes.length - 1
          let prevKeep := !atStart && classes.getD (i - 1) .discard == .keep
          let nextKeep := !atEnd && classes.getD (i + 1) .discard == .keep
          if prevKeep || nextKeep then
            (acc.1 ++ [elems.getD i default], acc.2 ++ [(i : Int)])
          else acc
      | .discard => acc)
    ([], [])

/-- `indexMapping`. -/
structure indexMapping where
  aToOrig : List Int
  bToOrig : List Int
  origN : Int
  origM : Int
deriving DecidableEq

/-- `filterConfusingElements`: classify, abort when more than 3/4 of all
elements are `keep`, otherwise filter both sequences and return the index
mapping. -/
def filterConfusingElements (a b : List Element) :
    List Element × List Element × Option indexMapping :=
  if a.length = 0 ∨ b.length = 0 then (a, b, none)
  else
    let aFreq := freqOf a
    let bFreq := freqOf b
    let threshold := max 8 (5 + (a.length + b.length) / 64)
    let aClass := classify a b (fun h => bFreq h > 0) (fun h => aFreq h + bFreq h) threshold
    let bClass := classify b a (fun h => aFreq h > 0) (fun h => aFreq h + bFreq h) threshold
    let keepCount := aClass.countP (· == .keep) + bClass.countP (· == .keep)
    if keepCount > (a.length + b.length) * 3 / 4 then (a, b, none)
    else
      let fa := filterSequence a aClass
      let fb := filterSequence b bClass
      if fa.1.length = 0 ∧ fb.1.length = 0 then (a, b, none)
      else (fa.1, fb.1, some ⟨fa.2, fb.2, (a.length : Int), (b.length : Int)⟩)

/-- The per-element expansion of one Equal op in `mapOps`: for each pair of
filtered indices, flush the Delete gap, then the Insert gap, then emit a
one-element Equal; `j` tracks `op.bStart + (i - op.aStart)`. -/
def mapEqualAux (aToOrig bToOrig : List Int) (i stop j aPos bPos : Int)
    (acc : List DiffOp) : Nat → DiffM (Int × Int × List DiffOp)
  | 0 => .error .fuelOut
  | fuel + 1 =>
      if i < stop then do
        let origA ← getl aToOrig i
        let origB ← getl bToOrig j
        let (acc, aPos) :=
          if origA > aPos then
            (acc ++ [⟨.Delete, aPos, origA, bPos, bPos⟩], origA)
          else (acc, aPos)
        let (acc, bPos) :=
          if origB > bPos then
            (acc ++ [⟨.Insert, aPos, aPos, bPos, origB⟩], origB)
          else (acc, bPos)
        let acc := acc ++ [⟨.Equal, origA, origA + 1, origB, origB + 1⟩]
        mapEqualAux aToOrig bToOrig (i + 1) stop (j + 1) (origA + 1) (origB + 1) acc fuel
      else .ok (aPos, bPos, acc)

/-- The per-element expansion of one Delete op in `mapOps`. -/
def mapDeleteAux (aToOrig : List Int) (i stop aPos bPos : Int)
    (acc : List DiffOp) : Nat → DiffM (Int × List DiffOp)
  | 0 => .error .fuelOut
  | fuel + 1 =>
      if i < stop then do
        let origA ← getl aToOrig i
        let acc :=
          if origA > aPos then acc ++ [⟨.Delete, aPos, origA, bPos, bPos⟩]
          else acc
        let acc := acc ++ [⟨.Delete, origA, origA + 1, bPos, bPos⟩]
        mapDeleteAux aToOrig (i + 1) stop (origA + 1) bPos acc fuel
      else .ok (aPos, acc)

/-- The per-element expansion of one Insert op in `mapOps`. -/
def mapInsertAux (bToOrig : List Int) (i stop aPos bPos : Int)
    (acc : List DiffOp) : Nat → DiffM (Int × List DiffOp)
  | 0 => .error .fuelOut
  | fuel + 1 =>
      if i < stop then do
        let origB ← getl bToOrig i
        let acc :=
          if origB > bPos then acc ++ [⟨.Insert, aPos, aPos, bPos, origB⟩]
          else acc
        let acc := acc ++ [⟨.Insert, aPos, aPos, origB, origB + 1⟩]
        mapInsertAux bToOrig (i + 1) stop aPos (origB + 1) acc fuel
      else .ok (bPos, acc)

/-- `indexMapping.mapOps`, the element-by-element variant of the
preprocessor file: expand each op back onto the original coordinates,
inserting Delete/Insert entries for filtered-out elements, flush the trailing
gaps, and merge.  (The `nil`-receiver early return lives at the call site,
where the mapping is an `Option`.) -/
def indexMapping.mapOps (m : indexMapping) (ops : List DiffOp) :
    DiffM (List DiffOp) := do
  let st ← ops.foldlM
    (fun (st : Int × Int × List DiffOp) op => do
      let (aPos, bPos, acc) := st
      match op.ty with
      | .Equal => do
          let fuel := (op.aEnd - op.aStart).toNat + 1
          mapEqualAux m.aToOrig m.bToOrig op.aStart op.aEnd op.bStart aPos bPos acc fuel
      | .Delete => do
          let fuel := (op.aEnd - op.aStart).toNat + 1
          let (aPos', acc') ← mapDeleteAux m.aToOrig op.aStart op.aEnd aPos bPos acc fuel
          pure (aPos', bPos, acc')
      | .Insert => do
          let fuel := (op.bEnd - op.bStart).toNat + 1
          let (bPos', acc') ← mapInsertAux m.bToOrig op.bStart op.bEnd aPos bPos acc fuel
          pure (aPos, bPos', acc'))
    ((0 : Int), (0 : Int), ([] : List DiffOp))
  let (aPos, bPos, result) := st
  let result :=
    if aPos < m.origN then result ++ [⟨.Delete, aPos, m.origN, bPos, bPos⟩]
    else result
  let result :=
    if bPos < m.origM then result ++ [⟨.Insert, m.origN, m.origN, bPos, m.origM⟩]
    else result
  return mergeOps result

/-! ## Postprocessor (`shiftBoundaries` and friends) -/

/-- Go `unicode.IsSpace` restricted to the ASCII range (all strings in this
development are ASCII): space, tab, newline, vertical tab, form feed,
carriage return. -/
def isSpaceGo (c : Char) : Bool :=
  c.toNat == 32 || c.toNat == 9 || c.toNat == 10
    || c.toNat == 11 || c.toNat == 12 || c.toNat == 13

/-- `strings.TrimSpace` on the character list. -/
def trimSpace (s : String) : List Char :=
  ((s.data.dropWhile isSpaceGo).reverse.dropWhile isSpaceGo).reverse

/-- `isBlank`: a `StringElement` whose trimmed content is empty; false for
any other element type. -/
def isBlank (e : Element) : Bool :=
  match e with
  | .str s => (trimSpace s).isEmpty
  | .other _ => false

/-- `endsWithPunctuation`: the trimmed string's last byte is one of
`. ! ? : ;` (codes 46 33 63 58 59); false for non-strings and empties. -/
def endsWithPunctuation (e : Element) : Bool :=
  match e with
  | .str s =>
      match (trimSpace s).getLast? with
      | none => false
      | some c =>
          c.toNat == 46 || c.toNat == 33 || c.toNat == 63
            || c.toNat == 58 || c.toNat == 59
  | .other _ => false

/-- `startsWithPunctuation`: the trimmed string's first byte is one of
`- * # >` (codes 45 42 35 62); false for non-strings and empties. -/
def startsWithPunctuation (e : Element) : Bool :=
  match e with
  | .str s =>
      match (trimSpace s).head? with
      | none => false
      | some c =>
          c.toNat == 45 || c.toNat == 42 || c.toNat == 35 || c.toNat == 62
  | .other _ => false

/-- `scoreBoundary`: additive readability score of a boundary placement.
Either guarded neighbour access can still panic when the op's coordinates
exceed the sequence (which happens when remapped ops meet filtered
sequences), hence the monad. -/
def scoreBoundary (start stop : Int) (elems : List Element) : DiffM Int := do
  let len : Int := elems.length
  let s1 ← if start > 0 then do
      let e ← getl elems (start - 1)
      pure (if isBlank e then (10 : Int) else 0)
    else pure 0
  let s2 ← if stop < len then do
      let e ← getl elems stop
      pure (if isBlank e then (10 : Int) else 0)
    else pure 0
  let s3 : Int := if start = 0 then 3 else 0
  let s4 : Int := if stop = len then 3 else 0
  let s5 ← if start > 0 then do
      let e ← getl elems (start - 1)
      pure (if endsWithPunctuation e then (2 : Int) else 0)
    else pure 0
  let s6 ← if stop < len then do
      let e ← getl elems stop
      pure (if startsWithPunctuation e then (2 : Int) else 0)
    else pure 0
  return s1 + s2 + s3 + s4 + s5 + s6

/-- The forward shift-potential scan of `shiftDelete`/`shiftInsert`: while
`e + i < len`, break on the first mismatched pair, otherwise extend.  The
second read (`s + i`) is what Go evaluates first; both are in bounds here
because `s < e`. -/
def shiftScanForward (v : List Element) (s e : Int) (i maxF : Int) :
    Nat → DiffM Int
  | 0 => .error .fuelOut
  | fuel + 1 =>
      if e + i < (v.length : Int) then do
        let x ← getl v (s + i)
        let y ← getl v (e + i)
        if x.equal y = false then .ok maxF
        else shiftScanForward v s e (i + 1) (i + 1) fuel
      else .ok maxF

/-- The backward shift-potential scan: while `s - i - 1 ≥ 0`, compare
`v[e-i-1]` against `v[s-i-1]`.  The first read is unguarded in the source
and panics when `e` exceeds the sequence length. -/
def shiftScanBackward (v : List Element) (s e : Int) (i maxB : Int) :
    Nat → DiffM Int
  | 0 => .error .fuelOut
  | fuel + 1 =>
      if s - i - 1 ≥ 0 then do
        let x ← getl v (e - i - 1)
        let y ← getl v (s - i - 1)
        if x.equal y = false then .ok maxB
        else shiftScanBackward v s e (i + 1) (i + 1) fuel
      else .ok maxB

/-- The score-maximising loop over shifts `1..cnt` in direction `dir`
(`1` forward, `-1` backward); a shift wins only with a strictly greater
score. -/
def bestShiftLoop (elems : List Element) (s e : Int) (dir : Int) (cnt : Nat)
    (best : Int × Int) : DiffM (Int × Int) :=
  (List.range cnt).foldlM
    (fun (best : Int × Int) k => do
      let shift : Int := (k : Int) + 1
      let sc ← scoreBoundary (s + dir * shift) (e + dir * shift) elems
      if sc > best.2 then pure (dir * shift, sc) else pure best)
    best

/-- `shiftDelete`: scan the legal shift range, score every position, move the
delete to the best strictly improving one. -/
def shiftDelete (op : DiffOp) (a _b : List Element) : DiffM DiffOp := do
  if op.aEnd - op.aStart = 0 then return op
  let fwdFuel := ((a.length : Int) - op.aEnd).toNat + 1
  let maxF ← shiftScanForward a op.aStart op.aEnd 0 0 fwdFuel
  let bwdFuel := op.aStart.toNat + 1
  let maxB ← shiftScanBackward a op.aStart op.aEnd 0 0 bwdFuel
  if maxF = 0 ∧ maxB = 0 then return op
  let base ← scoreBoundary op.aStart op.aEnd a
  let best ← bestShiftLoop a op.aStart op.aEnd 1 maxF.toNat (0, base)
  let best ← bestShiftLoop a op.aStart op.aEnd (-1) maxB.toNat best
  if best.1 = 0 then return op
  return ⟨.Delete, op.aStart + best.1, op.aEnd + best.1, op.bStart, op.bEnd⟩

/-- `shiftInsert`: the mirror image on B. -/
def shiftInsert (op : DiffOp) (_a b : List Element) : DiffM DiffOp := do
  if op.bEnd - op.bStart = 0 then return op
  let fwdFuel := ((b.length : Int) - op.bEnd).toNat + 1
  let maxF ← shiftScanForward b op.bStart op.bEnd 0 0 fwdFuel
  let bwdFuel := op.bStart.toNat + 1
  let maxB ← shiftScanBackward b op.bStart op.bEnd 0 0 bwdFuel
  if maxF = 0 ∧ maxB = 0 then return op
  let base ← scoreBoundary op.bStart op.bEnd b
  let best ← bestShiftLoop b op.bStart op.bEnd 1 maxF.toNat (0, base)
  let best ← bestShiftLoop b op.bStart op.bEnd (-1) maxB.toNat best
  if best.1 = 0 then return op
  return ⟨.Insert, op.aStart, op.aEnd, op.bStart + best.1, op.bEnd + best.1⟩

/-- `shiftOp` dispatch (the `ops`/`idx` parameters of the source are unused
there and omitted here). -/
def shiftOp (op : DiffOp) (a b : List Element) : DiffM DiffOp :=
  match op.ty with
  | .Delete => shiftDelete op a b
  | .Insert => shiftInsert op a b
  | .Equal => .ok op

/-- `tryShiftEqualBoundary`: examines the boundary and deliberately returns
both ops unchanged (see the source comments). -/
def tryShiftEqualBoundary (eqOp change : DiffOp) (a _b : List Element) :
    DiffOp × DiffOp :=
  if eqOp.aEnd - eqOp.aStart = 0 then (eqOp, change)
  else
    let lastEqA := eqOp.aEnd - 1
    if lastEqA < 0 ∨ lastEqA ≥ (a.length : Int) then (eqOp, change)
    else (eqOp, change)

/-- `tryShiftChangeBoundary`: likewise returns both ops unchanged. -/
def tryShiftChangeBoundary (change eqOp : DiffOp) (_a _b : List Element) :
    DiffOp × DiffOp :=
  if eqOp.aEnd - eqOp.aStart = 0 then (change, eqOp) else (change, eqOp)

/-- The in-place pass of `optimizeBoundaries` over index `i`; `fuel` is the
list length, enough for the index walk `i = 0 .. len-2`. -/
def optimizeAux (a b : List Element) (result : List DiffOp) (i : Nat) :
    Nat → List DiffOp
  | 0 => result
  | fuel + 1 =>
      if h : i + 1 < result.length then
        let curr := result.get ⟨i, Nat.lt_of_succ_lt h⟩
        let next := result.get ⟨i + 1, h⟩
        let (c1, n1) :=
          if curr.ty == OpType.Equal
              && (next.ty == OpType.Delete || next.ty == OpType.Insert) then
            tryShiftEqualBoundary curr next a b
          else (curr, next)
        let (c2, n2) :=
          if (curr.ty == OpType.Delete || curr.ty == OpType.Insert)
              && next.ty == OpType.Equal then
            tryShiftChangeBoundary c1 n1 a b
          else (c1, n1)
        optimizeAux a b ((result.set i c2).set (i + 1) n2) (i + 1) fuel
      else result

/-- `optimizeBoundaries`: the second-look pass over Equal/change boundaries
(inert by design in the source). -/
def optimizeBoundaries (ops : List DiffOp) (a b : List Element) : List DiffOp :=
  if ops.length < 2 then ops
  else optimizeAux a b ops 0 ops.length

/-- `shiftBoundaries`: shift each Delete/Insert independently, merge adjacent
same-type ops, then run the (inert) boundary optimiser. -/
def shiftBoundaries (ops : List DiffOp) (a b : List Element) :
    DiffM (List DiffOp) := do
  if ops.length = 0 then return ops
  let result ← ops.foldlM
    (fun acc op => do
      if op.ty == OpType.Equal then
        pure (acc ++ [op])
      else do
        let shifted ← shiftOp op a b
        pure (acc ++ [shifted]))
    ([] : List DiffOp)
  let result := mergeAdjacentOps result
  return optimizeBoundaries result a b

/-! ## Myers core (`diffContext`, `findMiddleSnake`, `compareSeq`,
`buildOps`) -/

/-- `partition`: the middle-snake result. -/
structure partition where
  xmid : Int
  ymid : Int
  loMinimal : Bool
  hiMinimal : Bool
deriving DecidableEq

/-- `diffContext`: the per-call scratch.  The diagonal arrays are allocated
once per context and reused (not cleared) across every `findMiddleSnake`
call of one driver invocation, exactly as in the source. -/
structure diffContext where
  xvec : List Element
  yvec : List Element
  fdiag : List Int
  bdiag : List Int
  xchanges : List Bool
  ychanges : List Bool
  useHeuristic : Bool
  costLimit : Int
deriving DecidableEq

/-- Newton iteration of the natural square root (the guess strictly
decreases, so `n + 2` steps of fuel always suffice). -/
def natSqrtAux (n : Nat) (x : Nat) : Nat → Nat
  | 0 => x
  | fuel + 1 =>
      let y := (x + n / x) / 2
      if y < x then natSqrtAux n y fuel else x

/-- Floor natural square root by Newton's method (the value of
`Nat.sqrt`, written with explicit fuel). -/
def natSqrt (n : Nat) : Nat :=
  if n ≤ 1 then n else natSqrtAux n (n / 2) (n + 2)

/-- `newDiffContext`.  The auto cost limit models
`int(math.Sqrt n * math.Sqrt m / 4)` as `natSqrt (n*m) / 4`; both are below
the 256 floor for every size this file evaluates, so the `max` with 256
coincides with the source. -/
def newDiffContext (a b : List Element) (opts : options) : diffContext :=
  let n := a.length
  let m := b.length
  let diagSize := n + m + 3
  let costLimit : Int :=
    if opts.costLimit = 0 ∧ opts.useHeuristic then
      (max 256 (natSqrt (n * m) / 4) : Nat)
    else opts.costLimit
  ⟨a, b, List.replicate diagSize 0, List.replicate diagSize 0,
    List.replicate n false, List.replicate m false, opts.useHeuristic, costLimit⟩

/-- `ctx.equal i j`: panicking element comparison. -/
def diffContext.equal (ctx : diffContext) (i j : Int) : DiffM Bool := do
  let x ← getl ctx.xvec i
  let y ← getl ctx.yvec j
  return x.equal y

/-- The write loop shared by `markDeleted` and `markInserted`. -/
def markRange (l : List Bool) (i lim : Int) : Nat → DiffM (List Bool)
  | 0 => if i < lim then .error .fuelOut else .ok l
  | fuel + 1 =>
      if i < lim then do
        let l2 ← setl l i true
        markRange l2 (i + 1) lim fuel
      else .ok l

/-- `markDeleted`. -/
def diffContext.markDeleted (ctx : diffContext) (xoff xlim : Int) :
    DiffM diffContext := do
  let l ← markRange ctx.xchanges xoff xlim ((xlim - xoff).toNat + 1)
  return { ctx with xchanges := l }

/-- `markInserted`. -/
def diffContext.markInserted (ctx : diffContext) (yoff ylim : Int) :
    DiffM diffContext := do
  let l ← markRange ctx.ychanges yoff ylim ((ylim - yoff).toNat + 1)
  return { ctx with ychanges := l }

/-- `isqrt`'s Newton iteration (`x` strictly decreases, so `n + 2` steps of
fuel always suffice). -/
def isqrtAux (n : Int) (x y : Int) : Nat → Int
  | 0 => x
  | fuel + 1 => if y < x then isqrtAux n y ((y + n / y) / 2) fuel else x

/-- `isqrt`: integer square root by Newton's method. -/
def isqrt (n : Int) : Int :=
  if n ≤ 0 then 0
  else if n = 1 then 1
  else isqrtAux n n ((n + 1) / 2) (n.toNat + 2)

/-- `significantMatchLen`. -/
def significantMatchLen : Int := 16

/-- `snakeInfo`; the Go zero value `{0,0,0,false}` is the initial
`bestSnake`. -/
structure snakeInfo where
  x : Int
  y : Int
  len : Int
  forward : Bool
deriving DecidableEq

/-- The mutable locals of `findMiddleSnake` threaded through its loops. -/
structure msState where
  fdiag : List Int
  bdiag : List Int
  bestSnake : snakeInfo
  bestSnakeScore : Int
deriving DecidableEq

/-- `snakeToPartition`. -/
def snakeToPartition (snake : snakeInfo) (xoff yoff _n _m : Int) : partition :=
  if snake.forward then ⟨xoff + snake.x, yoff + snake.y, true, false⟩
  else ⟨xoff + snake.x, yoff + snake.y, false, true⟩

/-- The diagonal slide `for x < n && y < m && equal(xoff+x, yoff+y)`. -/
def slideForward (xv yv : List Element) (xoff yoff n m x y : Int) :
    Nat → DiffM (Int × Int)
  | 0 => .error .fuelOut
  | fuel + 1 =>
      if x < n ∧ y < m then do
        let ex ← getl xv (xoff + x)
        let ey ← getl yv (yoff + y)
        if ex.equal ey then slideForward xv yv xoff yoff n m (x + 1) (y + 1) fuel
        else .ok (x, y)
      else .ok (x, y)

/-- The backward slide `for x > 0 && y > 0 && equal(xoff+x-1, yoff+y-1)`. -/
def slideBackward (xv yv : List Element) (xoff yoff x y : Int) :
    Nat → DiffM (Int × Int)
  | 0 => .error .fuelOut
  | fuel + 1 =>
      if x > 0 ∧ y > 0 then do
        let ex ← getl xv (xoff + x - 1)
        let ey ← getl yv (yoff + y - 1)
        if ex.equal ey then slideBackward xv yv xoff yoff (x - 1) (y - 1) fuel
        else .ok (x, y)
      else .ok (x, y)

/-- The forward half of one `d` step of `findMiddleSnake`: `k` from `kMin`
to `kMax` stepping by 2.  Returns the threaded state and, on overlap, the
partition to return immediately.  (The guard makes both neighbour reads in
bounds, so hoisting them out of Go's short-circuit condition is sound.) -/
def fwdLoop (xv yv : List Element) (useHeuristic : Bool)
    (xoff yoff n m delta offset d : Int) (deltaOdd : Bool) (k kMax : Int)
    (st : msState) : Nat → DiffM (msState × Option partition)
  | 0 => .error .fuelOut
  | fuel + 1 =>
      if k ≤ kMax then
        let kIdx := offset + k
        if kIdx - 1 < 0 ∨ kIdx + 1 ≥ (st.fdiag.length : Int) then
          fwdLoop xv yv useHeuristic xoff yoff n m delta offset d deltaOdd
            (k + 2) kMax st fuel
        else do
          let fm1 ← getl st.fdiag (kIdx - 1)
          let fp1 ← getl st.fdiag (kIdx + 1)
          let x := if k = -d ∨ (k ≠ d ∧ fm1 < fp1) then fp1 else fm1 + 1
          let y := x - k
          if y < 0 ∨ y > m ∨ x < 0 ∨ x > n then do
            let fd ← setl st.fdiag kIdx x
            fwdLoop xv yv useHeuristic xoff yoff n m delta offset d deltaOdd
              (k + 2) kMax { st with fdiag := fd } fuel
          else do
            let snakeStartX := x
            let xy ← slideForward xv yv xoff yoff n m x y ((n - x).toNat + 1)
            let x := xy.1
            let y := xy.2
            let snakeLen := x - snakeStartX
            let fd ← setl st.fdiag kIdx x
            let st := { st with fdiag := fd }
            let st :=
              if useHeuristic ∧ snakeLen ≥ significantMatchLen then
                let midDist := |(x + y) / 2 - (n + m) / 4|
                let score := snakeLen * 2 - midDist
                if score > st.bestSnakeScore then
                  { st with
                      bestSnakeScore := score
                      bestSnake := ⟨x, y, snakeLen, true⟩ }
                else st
              else st
            if deltaOdd ∧ k ≥ delta - (d - 1) ∧ k ≤ delta + (d - 1) then
              let bIdx := offset + k - delta
              if 0 ≤ bIdx ∧ bIdx < (st.bdiag.length : Int) then do
                let fv ← getl st.fdiag kIdx
                let bv ← getl st.bdiag bIdx
                if fv ≥ bv then
                  .ok (st, some ⟨xoff + x, yoff + y, true, true⟩)
                else
                  fwdLoop xv yv useHeuristic xoff yoff n m delta offset d
                    deltaOdd (k + 2) kMax st fuel
              else
                fwdLoop xv yv useHeuristic xoff yoff n m delta offset d
                  deltaOdd (k + 2) kMax st fuel
            else
              fwdLoop xv yv useHeuristic xoff yoff n m delta offset d deltaOdd
                (k + 2) kMax st fuel
      else .ok (st, none)

/-- The backward half of one `d` step. -/
def bwdLoop (xv yv : List Element) (useHeuristic : Bool)
    (xoff yoff n m delta offset d : Int) (deltaOdd : Bool) (k kMax : Int)
    (st : msState) : Nat → DiffM (msState × Option partition)
  | 0 => .error .fuelOut
  | fuel + 1 =>
      if k ≤ kMax then
        let kIdx := offset + k
        if kIdx - 1 < 0 ∨ kIdx + 1 ≥ (st.bdiag.length : Int) then
          bwdLoop xv yv useHeuristic xoff yoff n m delta offset d deltaOdd
            (k + 2) kMax st fuel
        else do
          let bm1 ← getl st.bdiag (kIdx - 1)
          let bp1 ← getl st.bdiag (kIdx + 1)
          let x := if k = d ∨ (k ≠ -d ∧ bm1 < bp1) then bm1 else bp1 - 1
          let y := x - k - delta
          if y < 0 ∨ y > m ∨ x < 0 ∨ x > n then do
            let bd ← setl st.bdiag kIdx x
            bwdLoop xv yv useHeuristic xoff yoff n m delta offset d deltaOdd
              (k + 2) kMax { st with bdiag := bd } fuel
          else do
            let snakeStartX := x
            let xy ← slideBackward xv yv xoff yoff x y (x.toNat + 1)
            let x := xy.1
            let y := xy.2
            let snakeLen := snakeStartX - x
            let bd ← setl st.bdiag kIdx x
            let st := { st with bdiag := bd }
            let st :=
              if useHeuristic ∧ snakeLen ≥ significantMatchLen then
                let midDist := |(x + y) / 2 - (n + m) / 4|
                let score := snakeLen * 2 - midDist
                if score > st.bestSnakeScore then
                  { st with
                      bestSnakeScore := score
                      bestSnake := ⟨x, y, snakeLen, false⟩ }
                else st
              else st
            if deltaOdd = false ∧ k + delta ≥ -d ∧ k + delta ≤ d then
              let fIdx := offset + k + delta
              if 0 ≤ fIdx ∧ fIdx < (st.fdiag.length : Int) then do
                let fv ← getl st.fdiag fIdx
                let bv ← getl st.bdiag kIdx
                if fv ≥ bv then
                  .ok (st, some ⟨xoff + fv, yoff + (fv - (k + delta)), true, true⟩)
                else
                  bwdLoop xv yv useHeuristic xoff yoff n m delta offset d
                    deltaOdd (k + 2) kMax st fuel
              else
                bwdLoop xv yv useHeuristic xoff yoff n m delta offset d
                  deltaOdd (k + 2) kMax st fuel
            else
              bwdLoop xv yv useHeuristic xoff yoff n m delta offset d deltaOdd
                (k + 2) kMax st fuel
      else .ok (st, none)

/-- Clamp and parity-adjust the `k` range of one `d` step: `max(-d, -m)`
(resp. `min(d, n)`), then move the lower end up by one when `(kMin + d)` is
odd. -/
def kRange (d bound n : Int) : Int × Int :=
  let kMin := max (-d) (-bound)
  let kMax := min d n
  (if (kMin + d) % 2 ≠ 0 then kMin + 1 else kMin, kMax)

/-- The main `d` loop of `findMiddleSnake`: heuristic cutoff, forward step,
backward step, cost-limit check, next `d`. -/
def dLoop (xv yv : List Element) (useHeuristic findMinimal : Bool)
    (xoff yoff n m delta offset : Int) (deltaOdd : Bool)
    (maxD costLimit tooExpensive : Int) (d : Int) (st : msState) :
    Nat → DiffM (msState × Option partition)
  | 0 => .error .fuelOut
  | fuel + 1 =>
      if d ≤ maxD then
        if useHeuristic ∧ findMinimal = false ∧ d > tooExpensive
            ∧ st.bestSnakeScore > 0 then
          .ok (st, some (snakeToPartition st.bestSnake xoff yoff n m))
        else do
          let kr := kRange d m n
          let kFuel := (kr.2 + 2 - kr.1).toNat + 1
          let r1 ← fwdLoop xv yv useHeuristic xoff yoff n m delta offset d
            deltaOdd kr.1 kr.2 st kFuel
          match r1 with
          | (st, some p) => .ok (st, some p)
          | (st, none) => do
            let r2 ← bwdLoop xv yv useHeuristic xoff yoff n m delta offset d
              deltaOdd kr.1 kr.2 st kFuel
            match r2 with
            | (st, some p) => .ok (st, some p)
            | (st, none) =>
                if d ≥ costLimit ∧ st.bestSnakeScore > 0 then
                  .ok (st, some (snakeToPartition st.bestSnake xoff yoff n m))
                else
                  dLoop xv yv useHeuristic findMinimal xoff yoff n m delta
                    offset deltaOdd maxD costLimit tooExpensive (d + 1) st fuel
      else .ok (st, none)

/-- `greedyFallback`: match from the frame's start and split there, else
advance one step, preferring a deletion (the x dimension) whenever `n > 0`;
both halves are non-minimal. -/
def greedyFallback (ctx : diffContext) (xoff xlim yoff ylim : Int) :
    DiffM partition := do
  let n := xlim - xoff
  let m := ylim - yoff
  let xy ← slideForward ctx.xvec ctx.yvec xoff yoff n m 0 0 (n.toNat + 1)
  if xy.1 > 0 then return ⟨xoff + xy.1, yoff + xy.2, false, false⟩
  if n > 0 then return ⟨xoff + 1, yoff, false, false⟩
  return ⟨xoff, yoff + 1, false, false⟩

/-- `findMiddleSnake`: the bidirectional bounded search with the heuristics
of the source, threading the context's reused diagonal arrays. -/
def findMiddleSnake (ctx : diffContext) (xoff xlim yoff ylim : Int)
    (findMinimal : Bool) : DiffM (partition × diffContext) :=
  let n := xlim - xoff
  let m := ylim - yoff
  if n = 0 then .ok (⟨xoff, ylim, true, true⟩, ctx)
  else if m = 0 then .ok (⟨xlim, yoff, true, true⟩, ctx)
  else do
    let delta := n - m
    let deltaOdd := delta % 2 ≠ 0
    let offset := m + 1
    let fd ← setl ctx.fdiag (offset + 1) 0
    let bd ← setl ctx.bdiag (offset + delta - 1) n
    let maxD := (n + m + 1) / 2
    let costLimit :=
      if ctx.costLimit > 0 ∧ findMinimal = false then min ctx.costLimit maxD
      else maxD
    let tooExpensive :=
      if ctx.useHeuristic ∧ findMinimal = false then
        min (isqrt n + isqrt m) costLimit
      else costLimit
    let st : msState := ⟨fd, bd, ⟨0, 0, 0, false⟩, 0⟩
    let r ← dLoop ctx.xvec ctx.yvec ctx.useHeuristic findMinimal xoff yoff n m
      delta offset deltaOdd maxD costLimit tooExpensive 0 st
      ((maxD + 2).toNat + 1)
    match r with
    | (st, some p) =>
        .ok (p, { ctx with fdiag := st.fdiag, bdiag := st.bdiag })
    | (st, none) =>
        let ctx2 := { ctx with fdiag := st.fdiag, bdiag := st.bdiag }
        if st.bestSnakeScore > 0 then
          .ok (snakeToPartition st.bestSnake xoff yoff n m, ctx2)
        else do
          let p ← greedyFallback ctx2 xoff xlim yoff ylim
          .ok (p, ctx2)

/-- The prefix trim of `compareSeq`. -/
def trimFront (ctx : diffContext) (xoff xlim yoff ylim : Int) :
    Nat → DiffM (Int × Int)
  | 0 => .error .fuelOut
  | fuel + 1 =>
      if xoff < xlim ∧ yoff < ylim then do
        let b ← ctx.equal xoff yoff
        if b then trimFront ctx (xoff + 1) xlim (yoff + 1) ylim fuel
        else .ok (xoff, yoff)
      else .ok (xoff, yoff)

/-- The suffix trim of `compareSeq`. -/
def trimBack (ctx : diffContext) (xoff xlim yoff ylim : Int) :
    Nat → DiffM (Int × Int)
  | 0 => .error .fuelOut
  | fuel + 1 =>
      if xoff < xlim ∧ yoff < ylim then do
        let b ← ctx.equal (xlim - 1) (ylim - 1)
        if b then trimBack ctx xoff (xlim - 1) yoff (ylim - 1) fuel
        else .ok (xlim, ylim)
      else .ok (xlim, ylim)

/-- `compareSeq`: trim, base cases, middle snake, recurse on both halves.
`fuel` bounds the recursion tree; the driver supplies enough for every input
evaluated in this development. -/
def compareSeq (ctx : diffContext) (xoff xlim yoff ylim : Int)
    (findMinimal : Bool) : Nat → DiffM diffContext
  | 0 => .error .fuelOut
  | fuel + 1 => do
      let f ← trimFront ctx xoff xlim yoff ylim
        ((min (xlim - xoff) (ylim - yoff)).toNat + 1)
      let xoff := f.1
      let yoff := f.2
      let g ← trimBack ctx xoff xlim yoff ylim
        ((min (xlim - xoff) (ylim - yoff)).toNat + 1)
      let xlim := g.1
      let ylim := g.2
      if xoff = xlim then ctx.markInserted yoff ylim
      else if yoff = ylim then ctx.markDeleted xoff xlim
      else do
        let pr ← findMiddleSnake ctx xoff xlim yoff ylim findMinimal
        let part := pr.1
        let ctx ← compareSeq pr.2 xoff part.xmid yoff part.ymid
          part.loMinimal fuel
        compareSeq ctx part.xmid xlim part.ymid ylim part.hiMinimal fuel

/-- The run `for i < n && xchanges[i]` (also used for `ychanges`); the fuel
is structural only, `l.length + 1` always suffices. -/
def boolRun (l : List Bool) (i : Nat) : Nat → Nat
  | 0 => i
  | fuel + 1 =>
      if i < l.length ∧ l.getD i false = true then boolRun l (i + 1) fuel
      else i

/-- The run `for i < n && j < m && !xchanges[i] && !ychanges[j]`; fuel as in
`boolRun`. -/
def eqRun (xch ych : List Bool) (i j : Nat) : Nat → Nat × Nat
  | 0 => (i, j)
  | fuel + 1 =>
      if i < xch.length ∧ j < ych.length ∧ xch.getD i false = false
          ∧ ych.getD j false = false then
        eqRun xch ych (i + 1) (j + 1) fuel
      else (i, j)

/-- One outer iteration of `buildOps` per fuel unit: Equal run, Delete run,
Insert run, recurse.  `none` models the source looping forever (possible
only when an iteration makes no progress, in which case `n + m + 1` units of
fuel run out). -/
def buildOpsAux (xch ych : List Bool) (i j : Nat) : Nat → Option (List DiffOp)
  | 0 => none
  | fuel + 1 =>
      if i < xch.length ∨ j < ych.length then
        let ij1 := eqRun xch ych i j (xch.length + 1)
        let i1 := ij1.1
        let j1 := ij1.2
        let eqOps : List DiffOp :=
          if i1 > i then [⟨.Equal, (i : Int), (i1 : Int), (j : Int), (j1 : Int)⟩]
          else []
        let i2 := boolRun xch i1 (xch.length + 1)
        let delOps : List DiffOp :=
          if i2 > i1 then [⟨.Delete, (i1 : Int), (i2 : Int), (j1 : Int), (j1 : Int)⟩]
          else []
        let j2 := boolRun ych j1 (ych.length + 1)
        let insOps : List DiffOp :=
          if j2 > j1 then [⟨.Insert, (i2 : Int), (i2 : Int), (j1 : Int), (j2 : Int)⟩]
          else []
        match buildOpsAux xch ych i2 j2 fuel with
        | some rest => some (eqOps ++ delOps ++ insOps ++ rest)
        | none => none
      else some []

/-- `buildOps`: rebuild the op list from the change marks.  The source's
loop bounds are `len(xvec)`/`len(yvec)`; `newDiffContext` allocates the mark
arrays with exactly those lengths, so the bounds are read off the arrays
here, which makes every mark access manifestly in bounds. -/
def buildOps (ctx : diffContext) : DiffM (List DiffOp) :=
  match buildOpsAux ctx.xchanges ctx.ychanges 0 0
      (ctx.xchanges.length + ctx.ychanges.length + 1) with
  | some ops => .ok ops
  | none => .error .fuelOut

/-! ## Histogram driver -/

/-- `histogramOptions`. -/
structure histogramOptions where
  maxChainLength : Nat
  fallbackToMyers : Bool
  filterStopwords : Bool
deriving DecidableEq

/-- `defaultHistogramOptions`. -/
def defaultHistogramOptions : histogramOptions :=
  ⟨64, true, true⟩

/-- The fixed stopword set (case-sensitive). -/
def stopwords : List String :=
  ["a", "an", "the", "in", "on", "to", "for", "of", "with", "and", "or",
    "is", "are", "be"]

/-- `isStopword`: membership for `StringElement`s, false otherwise. -/
def isStopword (e : Element) : Bool :=
  match e with
  | .str s => stopwords.contains s
  | .other _ => false

/-- Length of the common elementwise-equal prefix (the trim loops of
`histogramDiff` and the match-extension loops, which walk index by index,
compute exactly this on the corresponding sublists). -/
def commonPrefixLen : List Element → List Element → Nat
  | x :: xs, y :: ys => if x.equal y then commonPrefixLen xs ys + 1 else 0
  | _, _ => 0

/-- Go slice `l[i:j]` with natural bounds. -/
def sliceN {α : Type} (l : List α) (i j : Nat) : List α :=
  (l.take j).drop i

/-- The inverted index `aIndices[h]`: positions of `a` whose hash is `h`, in
ascending (append) order. -/
def hashIndices (a : List Element) (h : Nat) : List Nat :=
  (a.enum.filter fun p => p.2.hash == h).map (·.1)

/-- The inner loop of anchor scoring: the smallest position imbalance over
the hash-matching (and equality-verified) positions of `a`, starting from
the impossible value 2. -/
def bestImbalance (a : List Element) (e : Element) (bRatio : ℚ) (h : Nat) : ℚ :=
  (hashIndices a h).foldl
    (fun acc aIdx =>
      if (a.getD aIdx default).equal e = false then acc
      else
        let aRatio : ℚ := (aIdx : ℚ) / (a.length : ℚ)
        let imb := |aRatio - bRatio|
        if imb < acc then imb else acc)
    2

/-- The anchor-selection loop of `histogramDiffRecursive` over the elements
of `b`: skip stopwords, skip out-of-range frequencies, reject elements with
no balanced match, and keep the globally lowest score
`freq * (1 + 2 * imbalance)`.  Returns `(bestScore, bestIdx, bestHash)` with
`bestIdx = -1` when no candidate qualified.  `float64` scoring is modelled
exactly over `ℚ`. -/
def bestAnchorScan (a b : List Element) (opts : histogramOptions) :
    ℚ × Int × Nat :=
  b.enum.foldl
    (fun (st : ℚ × Int × Nat) (p : Nat × Element) =>
      let i := p.1
      let e := p.2
      if opts.filterStopwords ∧ isStopword e then st
      else
        let h := e.hash
        let freq := freqOf a h
        if freq = 0 ∨ freq > opts.maxChainLength then st
        else
          let bRatio : ℚ := (i : ℚ) / (b.length : ℚ)
          let imb := bestImbalance a e bRatio h
          if imb > 3 / 2 then st
          else
            let score := (freq : ℚ) * (1 + imb * 2)
            if score < st.1 then (score, (i : Int), h) else st)
    (((opts.maxChainLength : ℚ) + 1) * 3, -1, 0)

/-- The anchor-placement loop: among the hash-matching positions of `a`
(equality-verified), the one whose position ratio is closest to
`bestIdx / len(b)`; `-1` when none verifies. -/
def bestMatchIdx (a b : List Element) (bestIdx : Int) (bestHash : Nat) : Int :=
  let bRatio : ℚ := (bestIdx : ℚ) / (b.length : ℚ)
  ((hashIndices a bestHash).foldl
    (fun (st : ℚ × Int) idx =>
      if (a.getD idx default).equal (b.getD bestIdx.toNat default) = false then st
      else
        let aRatio : ℚ := (idx : ℚ) / (a.length : ℚ)
        let rd := |aRatio - bRatio|
        if rd < st.1 then (rd, (idx : Int)) else st)
    (2, -1)).2

/-- `myersFallback`: run the Myers core over the section with fresh default
options (preprocessing, postprocessing and anchor elimination off), then
shift the resulting op coordinates by the section offsets. -/
def myersFallback (a b : List Element) (aOff bOff : Int) :
    DiffM (List DiffOp) := do
  let o : options :=
    { defaultOptions with
        preprocessing := false
        postprocessing := false
        anchorElimination := false }
  let ctx := newDiffContext a b o
  let ctx ← compareSeq ctx 0 a.length 0 b.length false (a.length + b.length + 8)
  let ops ← buildOps ctx
  return ops.map fun op =>
    ⟨op.ty, op.aStart + aOff, op.aEnd + aOff, op.bStart + bOff, op.bEnd + bOff⟩

/-- `histogramDiffRecursive`: pick the best anchor in the section, place it,
extend the match both ways, emit Equal for the matched extent and recurse on
both sides; fall back to Myers (or a whole-section Delete+Insert) when no
anchor qualifies.  `fuel` bounds the recursion depth (each level strictly
shrinks the section, so `len a + len b + 1` always suffices). -/
def histogramDiffRecursive (a b : List Element) (aOff bOff : Int)
    (opts : histogramOptions) : Nat → DiffM (List DiffOp)
  | 0 => .error .fuelOut
  | fuel + 1 =>
      if a.length = 0 ∧ b.length = 0 then .ok []
      else if a.length = 0 then
        .ok [⟨.Insert, aOff, aOff, bOff, bOff + b.length⟩]
      else if b.length = 0 then
        .ok [⟨.Delete, aOff, aOff + a.length, bOff, bOff⟩]
      else
        let scan := bestAnchorScan a b opts
        let bestIdx := scan.2.1
        let bestHash := scan.2.2
        if bestIdx = -1 then
          if opts.fallbackToMyers then myersFallback a b aOff bOff
          else
            .ok [⟨.Delete, aOff, aOff + a.length, bOff, bOff⟩,
              ⟨.Insert, aOff + a.length, aOff + a.length, bOff, bOff + b.length⟩]
        else
          let aMatchIdx := bestMatchIdx a b bestIdx bestHash
          if aMatchIdx = -1 then
            if opts.fallbackToMyers then myersFallback a b aOff bOff
            else
              .ok [⟨.Delete, aOff, aOff + a.length, bOff, bOff⟩,
                ⟨.Insert, aOff + a.length, aOff + a.length, bOff, bOff + b.length⟩]
          else do
            -- Backward and forward extension of the matched region; the
            -- index-by-index loops compute common prefix lengths of the
            -- reversed prefixes (backward) and of the suffixes (forward).
            let am := aMatchIdx.toNat
            let bm := bestIdx.toNat
            let back := commonPrefixLen (a.take am).reverse (b.take bm).reverse
            let msA := am - back
            let msB := bm - back
            let fwd := commonPrefixLen (a.drop (am + 1)) (b.drop (bm + 1))
            let meA := am + 1 + fwd
            let meB := bm + 1 + fwd
            let before ←
              if msA > 0 ∨ msB > 0 then
                histogramDiffRecursive (a.take msA) (b.take msB) aOff bOff
                  opts fuel
              else pure []
            let middle : List DiffOp :=
              [⟨.Equal, aOff + (msA : Int), aOff + (meA : Int),
                bOff + (msB : Int), bOff + (meB : Int)⟩]
            let after ←
              if meA < a.length ∨ meB < b.length then
                histogramDiffRecursive (a.drop meA) (b.drop meB)
                  (aOff + (meA : Int)) (bOff + (meB : Int)) opts fuel
              else pure []
            return before ++ middle ++ after

/-- `histogramDiff`: trivial cases, common prefix/suffix trim, recursive
middle, final merge of adjacent same-type ops. -/
def histogramDiff (a b : List Element) (opts : histogramOptions) :
    DiffM (List DiffOp) :=
  if a.length = 0 ∧ b.length = 0 then .ok []
  else if a.length = 0 then .ok [⟨.Insert, 0, 0, 0, b.length⟩]
  else if b.length = 0 then .ok [⟨.Delete, 0, a.length, 0, 0⟩]
  else
    let prefixLen := commonPrefixLen a b
    let suffixLen :=
      commonPrefixLen (a.drop prefixLen).reverse (b.drop prefixLen).reverse
    if prefixLen + suffixLen ≥ a.length ∧ prefixLen + suffixLen ≥ b.length then
      .ok [⟨.Equal, 0, a.length, 0, b.length⟩]
    else do
      let aE := a.length - suffixLen
      let bE := b.length - suffixLen
      let pre : List DiffOp :=
        if prefixLen > 0 then [⟨.Equal, 0, prefixLen, 0, prefixLen⟩] else []
      let mid ← histogramDiffRecursive (sliceN a prefixLen aE)
        (sliceN b prefixLen bE) prefixLen prefixLen opts
        (a.length + b.length + 2)
      let suf : List DiffOp :=
        if suffixLen > 0 then
          [⟨.Equal, (a.length : Int) - suffixLen, a.length,
            (b.length : Int) - suffixLen, b.length⟩]
        else []
      return mergeAdjacentOps (pre ++ mid ++ suf)

/-- `eliminateWeakAnchors` in its current form: merge adjacent same-type
ops, nothing else (the stopword-trimming version is dead code). -/
def eliminateWeakAnchors (ops : List DiffOp) (_a _b : List Element) :
    List DiffOp :=
  if ops.length < 2 then ops else mergeAdjacentOps ops

/-! ## Public drivers -/

/-- `DiffElements`: options are already resolved into the record.  Note two
faithfully preserved quirks of the source: the preprocessor's output
*replaces* `a` and `b` (so the postprocessor later receives the filtered
sequences while the remapped ops carry original indices), and the context is
created over whatever pair is current.  The filter never returns two empty
sequences with a mapping, so the recreated context is always the one over
the current pair. -/
def DiffElements (a b : List Element) (o : options) : DiffM (List DiffOp) :=
  if a.length = 0 ∧ b.length = 0 then .ok []
  else if a.length = 0 then .ok [⟨.Insert, 0, 0, 0, b.length⟩]
  else if b.length = 0 then .ok [⟨.Delete, 0, a.length, 0, 0⟩]
  else
    let pp := if o.preprocessing then filterConfusingElements a b else (a, b, none)
    let a2 := pp.1
    let b2 := pp.2.1
    let mapping := pp.2.2
    do
      let ctx := newDiffContext a2 b2 o
      let ctx ←
        if a2.length > 0 ∨ b2.length > 0 then
          compareSeq ctx 0 a2.length 0 b2.length o.forceMinimal
            (a2.length + b2.length + 8)
        else pure ctx
      let ops ← buildOps ctx
      let ops ←
        match mapping with
        | some mp => mp.mapOps ops
        | none => pure ops
      if o.postprocessing then shiftBoundaries ops a2 b2 else pure ops

/-- `Diff` on string slices. -/
def Diff (a b : List String) (o : options) : DiffM (List DiffOp) :=
  DiffElements (toElements a) (toElements b) o

/-- `DiffElementsHistogram`: histogram diff with the fixed default histogram
options, then optional anchor elimination and boundary shifting over the
original sequences. -/
def DiffElementsHistogram (a b : List Element) (o : options) :
    DiffM (List DiffOp) := do
  let ops ← histogramDiff a b defaultHistogramOptions
  let ops := if o.anchorElimination then eliminateWeakAnchors ops a b else ops
  if o.postprocessing then shiftBoundaries ops a b else pure ops

/-- `DiffHistogram` on string slices. -/
def DiffHistogram (a b : List String) (o : options) : DiffM (List DiffOp) :=
  DiffElementsHistogram (toElements a) (toElements b) o

/-! ## Proof-side predicates and concrete inputs -/

/-- Two consecutive ops are unmergeable (the canonical-form relation the
merge pass establishes). -/
def noMergePair (p q : DiffOp) : Prop := canMerge p q = false

/-- Loop invariant of `buildOpsAux`: what the head of its output implies
about the scan position `(i, j)` and the marks. -/
def headStateOK (xch ych : List Bool) (i j : Nat) : List DiffOp → Prop
  | [] => True
  | op :: _ =>
      match op.ty with
      | .Equal =>
          i < xch.length ∧ j < ych.length ∧ xch.getD i false = false
            ∧ ych.getD j false = false
      | .Delete => i < xch.length ∧ xch.getD i false = true
      | .Insert => j < ych.length ∧ ych.getD j false = true

/-- The context of claim C5's counterexample: a one-element A against a
five-element B with no matching pair. -/
def c5ctx : diffContext :=
  newDiffContext (toElements ["p"]) (toElements ["q1", "q2", "q3", "q4", "q5"])
    defaultOptions

/-- The context of claim C5's witness: two-element frames with a matching
first pair. -/
def c5wctx : diffContext :=
  newDiffContext (toElements ["m", "n"]) (toElements ["m", "k"]) defaultOptions

/-- Claim C6's failing input, side A: nine high-frequency elements, one
anchor, one changed tail element. -/
def c6A : List Element :=
  toElements ["c", "c", "c", "c", "c", "c", "c", "c", "c", "u", "p"]

/-- Claim C6's failing input, side B. -/
def c6B : List Element :=
  toElements ["c", "c", "c", "c", "c", "c", "c", "c", "c", "u", "q"]

/-! ## Merge-pass structure lemmas -/

theorem mergeAux_head_fields :
    ∀ (l : List DiffOp) (cur : DiffOp),
      ∃ h t, mergeAux cur l = h :: t ∧ h.ty = cur.ty ∧ h.aStart = cur.aStart
        ∧ h.bStart = cur.bStart := by
  intro l
  induction l with
  | nil => exact fun cur => ⟨cur, [], rfl, rfl, rfl, rfl⟩
  | cons op rest ih =>
      intro cur
      by_cases hm : canMerge cur op
      · obtain ⟨h, t, he, h1, h2, h3⟩ :=
          ih ⟨cur.ty, cur.aStart, op.aEnd, cur.bStart, op.bEnd⟩
        exact ⟨h, t, by simpa [mergeAux, hm] using he, h1, h2, h3⟩
      · exact ⟨cur, mergeAux op rest, by simp [mergeAux, hm], rfl, rfl, rfl⟩

theorem mergeAux_chain :
    ∀ (l : List DiffOp) (cur : DiffOp),
      List.Chain' noMergePair (mergeAux cur l) := by
  intro l
  induction l with
  | nil => intro cur; simp [mergeAux, List.chain'_singleton]
  | cons op rest ih =>
      intro cur
      by_cases hm : canMerge cur op
      · simpa [mergeAux, hm] using ih ⟨cur.ty, cur.aStart, op.aEnd, cur.bStart, op.bEnd⟩
      · have hstep : mergeAux cur (op :: rest) = cur :: mergeAux op rest := by
          simp [mergeAux, hm]
        rw [hstep]
        refine (ih op).cons' ?_
        intro y hy
        obtain ⟨h, t, he, h1, h2, h3⟩ := mergeAux_head_fields rest op
        rw [he] at hy
        simp only [List.head?_cons, Option.mem_def, Option.some.injEq] at hy
        subst hy
        have heq : canMerge cur h = canMerge cur op := by
          simp [canMerge, h1, h2, h3]
        simp only [noMergePair, heq]
        simp only [Bool.not_eq_true] at hm
        exact hm

theorem mergeAux_of_chain :
    ∀ (l : List DiffOp) (cur : DiffOp),
      List.Chain' noMergePair (cur :: l) → mergeAux cur l = cur :: l := by
  intro l
  induction l with
  | nil => intro cur _; rfl
  | cons op rest ih =>
      intro cur hch
      rw [List.chain'_cons] at hch
      have hm : canMerge cur op = false := hch.1
      simp [mergeAux, hm, ih op hch.2]

theorem mergeAdjacentOps_chain (l : List DiffOp) :
    List.Chain' noMergePair (mergeAdjacentOps l) := by
  match l with
  | [] => simp [mergeAdjacentOps]
  | [x] => simp [mergeAdjacentOps, List.chain'_singleton]
  | x :: y :: rest => exact mergeAux_chain (y :: rest) x

theorem mergeAdjacentOps_of_chain {l : List DiffOp}
    (h : List.Chain' noMergePair l) : mergeAdjacentOps l = l := by
  match l with
  | [] => rfl
  | [x] => rfl
  | x :: y :: rest => exact mergeAux_of_chain (y :: rest) x h

theorem mergeOps_eq_mergeAdjacentOps : ∀ l : List DiffOp, mergeOps l = mergeAdjacentOps l :=
  fun _ => rfl

theorem mergeAdjacentOps_idem (l : List DiffOp) :
    mergeAdjacentOps (mergeAdjacentOps l) = mergeAdjacentOps l :=
  mergeAdjacentOps_of_chain (mergeAdjacentOps_chain l)

/-! ## The boundary optimiser is the identity -/

theorem tryShiftEqualBoundary_eq (e c : DiffOp) (a b : List Element) :
    tryShiftEqualBoundary e c a b = (e, c) := by
  unfold tryShiftEqualBoundary
  split
  · rfl
  · simp

theorem tryShiftChangeBoundary_eq (c e : DiffOp) (a b : List Element) :
    tryShiftChangeBoundary c e a b = (c, e) := by
  unfold tryShiftChangeBoundary
  split <;> rfl

theorem list_set_self {α : Type} :
    ∀ (l : List α) (i : Nat) (h : i < l.length), l.set i (l.get ⟨i, h⟩) = l := by
  intro l
  induction l with
  | nil => intro i h; cases h
  | cons x xs ih =>
      intro i h
      match i with
      | 0 => rfl
      | i + 1 =>
          have h2 : i < xs.length := by simpa using h
          show x :: xs.set i ((x :: xs).get ⟨i + 1, h⟩) = x :: xs
          exact congrArg (x :: ·) (ih i h2)

theorem optimizeAux_eq (a b : List Element) :
    ∀ (fuel : Nat) (l : List DiffOp) (i : Nat), optimizeAux a b l i fuel = l := by
  intro fuel
  induction fuel with
  | zero => intro l i; rfl
  | succ fuel ih =>
      intro l i
      unfold optimizeAux
      split
      · rename_i h
        simp only [tryShiftEqualBoundary_eq, tryShiftChangeBoundary_eq]
        have hset :
            ((l.set i (l.get ⟨i, Nat.lt_of_succ_lt h⟩)).set (i + 1)
                (l.get ⟨i + 1, h⟩)) = l := by
          rw [list_set_self l i (Nat.lt_of_succ_lt h)]
          exact list_set_self l (i + 1) h
        split <;> split <;> rw [hset] <;> exact ih l (i + 1)
      · rfl

theorem optimizeBoundaries_eq (l : List DiffOp) (a b : List Element) :
    optimizeBoundaries l a b = l := by
  unfold optimizeBoundaries
  split
  · rfl
  · exact optimizeAux_eq a b l.length l 0

/-! ## Walking `Except` pipelines -/

theorem bind_ok_iff {α β : Type} (x : DiffM α) (f : α → DiffM β) (b : β) :
    (x >>= f) = .ok b ↔ ∃ a, x = .ok a ∧ f a = .ok b := by
  cases x with
  | ok a =>
      constructor
      · intro h; exact ⟨a, rfl, h⟩
      · rintro ⟨a2, ha, hf⟩
        cases ha
        exact hf
  | error e =>
      constructor
      · intro h; cases h
      · rintro ⟨a2, ha, _⟩; cases ha

theorem shiftBoundaries_ok_chain {ops : List DiffOp} {a b : List Element}
    {l : List DiffOp} (h : shiftBoundaries ops a b = .ok l) :
    List.Chain' noMergePair l := by
  unfold shiftBoundaries at h
  split at h
  · rename_i hlen
    simp only [pure, Except.pure, Except.ok.injEq] at h
    subst h
    have : ops = [] := List.length_eq_zero.mp hlen
    subst this
    exact List.chain'_nil
  · rw [bind_ok_iff] at h
    obtain ⟨_, _, h⟩ := h
    rw [bind_ok_iff] at h
    obtain ⟨r, _, h⟩ := h
    simp only [optimizeBoundaries_eq, pure, Except.pure, Except.ok.injEq] at h
    subst h
    exact mergeAdjacentOps_chain r

/-! ## `buildOps` emits no two adjacent ops of the same type -/

theorem boolRun_ge (l : List Bool) :
    ∀ (fuel : Nat) (i : Nat), i ≤ boolRun l i fuel := by
  intro fuel
  induction fuel with
  | zero => intro i; exact Nat.le_refl i
  | succ fuel ih =>
      intro i
      unfold boolRun
      split
      · exact Nat.le_trans (Nat.le_succ i) (ih (i + 1))
      · exact Nat.le_refl i

theorem boolRun_stop (l : List Bool) :
    ∀ (fuel : Nat) (i : Nat), l.length - i < fuel →
      ¬(boolRun l i fuel < l.length ∧ l.getD (boolRun l i fuel) false = true) := by
  intro fuel
  induction fuel with
  | zero => intro i h; omega
  | succ fuel ih =>
      intro i hf
      unfold boolRun
      split
      · rename_i hc
        exact ih (i + 1) (by omega)
      · rename_i hc
        exact hc

theorem boolRun_advance (l : List Bool) (fuel i : Nat)
    (h : i < boolRun l i fuel) : i < l.length ∧ l.getD i false = true := by
  match fuel with
  | 0 => exact absurd h (by unfold boolRun; omega)
  | fuel + 1 =>
      rw [boolRun] at h
      by_cases hc : i < l.length ∧ l.getD i false = true
      · exact hc
      · rw [if_neg hc] at h
        omega

theorem eqRun_fst_ge (xch ych : List Bool) :
    ∀ (fuel : Nat) (i j : Nat), i ≤ (eqRun xch ych i j fuel).1 := by
  intro fuel
  induction fuel with
  | zero => intro i j; exact Nat.le_refl i
  | succ fuel ih =>
      intro i j
      unfold eqRun
      split
      · exact Nat.le_trans (Nat.le_succ i) (ih (i + 1) (j + 1))
      · exact Nat.le_refl i

theorem eqRun_stop (xch ych : List Bool) :
    ∀ (fuel : Nat) (i j : Nat), xch.length - i < fuel →
      ¬((eqRun xch ych i j fuel).1 < xch.length
        ∧ (eqRun xch ych i j fuel).2 < ych.length
        ∧ xch.getD (eqRun xch ych i j fuel).1 false = false
        ∧ ych.getD (eqRun xch ych i j fuel).2 false = false) := by
  intro fuel
  induction fuel with
  | zero => intro i j h; omega
  | succ fuel ih =>
      intro i j hf
      unfold eqRun
      split
      · rename_i hc
        exact ih (i + 1) (j + 1) (by omega)
      · rename_i hc
        exact hc

theorem eqRun_advance (xch ych : List Bool) (fuel i j : Nat)
    (h : i < (eqRun xch ych i j fuel).1) :
    i < xch.length ∧ j < ych.length ∧ xch.getD i false = false
      ∧ ych.getD j false = false := by
  match fuel with
  | 0 => exact absurd h (by unfold eqRun; omega)
  | fuel + 1 =>
      rw [eqRun] at h
      by_cases hc : i < xch.length ∧ j < ych.length ∧ xch.getD i false = false
          ∧ ych.getD j false = false
      · exact hc
      · rw [if_neg hc] at h
        omega

theorem eqRun_snd_fix (xch ych : List Bool) (fuel i j : Nat)
    (h : (eqRun xch ych i j fuel).1 = i) : (eqRun xch ych i j fuel).2 = j := by
  match fuel with
  | 0 => rw [eqRun]
  | fuel + 1 =>
      rw [eqRun] at h ⊢
      by_cases hc : i < xch.length ∧ j < ych.length ∧ xch.getD i false = false
          ∧ ych.getD j false = false
      · rw [if_pos hc] at h
        have := eqRun_fst_ge xch ych fuel (i + 1) (j + 1)
        omega
      · rw [if_neg hc]

theorem headOK_not_eq {xch ych : List Bool} {i2 j2 : Nat} {rest : List DiffOp}
    (hh : headStateOK xch ych i2 j2 rest)
    (hf : ¬(i2 < xch.length ∧ j2 < ych.length ∧ xch.getD i2 false = false
      ∧ ych.getD j2 false = false)) :
    ∀ y ∈ rest.head?, y.ty ≠ OpType.Equal := by
  intro y hy hty
  match rest with
  | [] => cases hy
  | rop :: t =>
      simp only [List.head?_cons, Option.mem_def, Option.some.injEq] at hy
      subst hy
      simp only [headStateOK] at hh
      rw [hty] at hh
      exact hf hh

theorem headOK_not_del {xch ych : List Bool} {i2 j2 : Nat} {rest : List DiffOp}
    (hh : headStateOK xch ych i2 j2 rest)
    (hf : ¬(i2 < xch.length ∧ xch.getD i2 false = true)) :
    ∀ y ∈ rest.head?, y.ty ≠ OpType.Delete := by
  intro y hy hty
  match rest with
  | [] => cases hy
  | rop :: t =>
      simp only [List.head?_cons, Option.mem_def, Option.some.injEq] at hy
      subst hy
      simp only [headStateOK] at hh
      rw [hty] at hh
      exact hf hh

theorem headOK_not_ins {xch ych : List Bool} {i2 j2 : Nat} {rest : List DiffOp}
    (hh : headStateOK xch ych i2 j2 rest)
    (hf : ¬(j2 < ych.length ∧ ych.getD j2 false = true)) :
    ∀ y ∈ rest.head?, y.ty ≠ OpType.Insert := by
  intro y hy hty
  match rest with
  | [] => cases hy
  | rop :: t =>
      simp only [List.head?_cons, Option.mem_def, Option.some.injEq] at hy
      subst hy
      simp only [headStateOK] at hh
      rw [hty] at hh
      exact hf hh

theorem buildOpsAux_chain (xch ych : List Bool) :
    ∀ (fuel i j : Nat) (ops : List DiffOp),
      buildOpsAux xch ych i j fuel = some ops →
      List.Chain' (fun p q => p.ty ≠ q.ty) ops ∧ headStateOK xch ych i j ops := by
  intro fuel
  induction fuel with
  | zero => intro i j ops h; cases h
  | succ fuel ih =>
      intro i j ops h
      rw [buildOpsAux] at h
      by_cases hguard : i < xch.length ∨ j < ych.length
      · rw [if_pos hguard] at h
        dsimp only [] at h
        set i1 := (eqRun xch ych i j (xch.length + 1)).1 with hi1
        set j1 := (eqRun xch ych i j (xch.length + 1)).2 with hj1
        set i2 := boolRun xch i1 (xch.length + 1) with hi2
        set j2 := boolRun ych j1 (ych.length + 1) with hj2
        have hF1 := eqRun_stop xch ych (xch.length + 1) i j (by omega)
        have hF2 := boolRun_stop xch (xch.length + 1) i1 (by omega)
        have hF3 := boolRun_stop ych (ych.length + 1) j1 (by omega)
        have hge1 : i ≤ i1 := eqRun_fst_ge xch ych (xch.length + 1) i j
        have hge2 : i1 ≤ i2 := boolRun_ge xch (xch.length + 1) i1
        have hge3 : j1 ≤ j2 := boolRun_ge ych (ych.length + 1) j1
        rw [← hi1, ← hj1] at hF1
        rw [← hi2] at hF2
        rw [← hj2] at hF3
        cases hrec : buildOpsAux xch ych i2 j2 fuel with
        | none => rw [hrec] at h; cases h
        | some rest =>
            rw [hrec] at h
            simp only [Option.some.injEq] at h
            subst h
            obtain ⟨hchain, hhead⟩ := ih i2 j2 rest hrec
            by_cases hA : i1 > i
            · -- the Equal run advanced
              have hAfacts := eqRun_advance xch ych (xch.length + 1) i j (hi1 ▸ hA)
              rw [if_pos hA]
              by_cases hB : i2 > i1
              · rw [if_pos hB]
                by_cases hC : j2 > j1
                · rw [if_pos hC]
                  refine ⟨?_, ?_⟩
                  · refine List.chain'_cons.mpr ⟨by simp, ?_⟩
                    refine List.chain'_cons.mpr ⟨by simp, ?_⟩
                    refine List.Chain'.cons' hchain ?_
                    intro y hy
                    exact fun hh => headOK_not_ins hhead hF3 y hy hh.symm
                  · simpa [headStateOK] using hAfacts
                · rw [if_neg hC]
                  have hj12 : j2 = j1 := by omega
                  refine ⟨?_, ?_⟩
                  · refine List.chain'_cons.mpr ⟨by simp, ?_⟩
                    refine List.Chain'.cons' hchain ?_
                    intro y hy
                    exact fun hh => headOK_not_del hhead hF2 y hy hh.symm
                  · simpa [headStateOK] using hAfacts
              · rw [if_neg hB]
                have hi12 : i2 = i1 := by omega
                by_cases hC : j2 > j1
                · rw [if_pos hC]
                  refine ⟨?_, ?_⟩
                  · refine List.chain'_cons.mpr ⟨by simp, ?_⟩
                    refine List.Chain'.cons' hchain ?_
                    intro y hy
                    exact fun hh => headOK_not_ins hhead hF3 y hy hh.symm
                  · simpa [headStateOK] using hAfacts
                · rw [if_neg hC]
                  have hj12 : j2 = j1 := by omega
                  refine ⟨?_, ?_⟩
                  · refine List.Chain'.cons' hchain ?_
                    intro y hy
                    refine fun hh => headOK_not_eq hhead ?_ y hy hh.symm
                    rw [hi12, hj12]
                    exact hF1
                  · simpa [headStateOK] using hAfacts
            · -- the Equal run did not advance
              have hi1i : i1 = i := by omega
              have hj1j : j1 = j := eqRun_snd_fix xch ych (xch.length + 1) i j (hi1 ▸ hi1i)
              rw [if_neg hA]
              by_cases hB : i2 > i1
              · have hBfacts := boolRun_advance xch (xch.length + 1) i1 (hi2 ▸ hB)
                rw [if_pos hB]
                by_cases hC : j2 > j1
                · rw [if_pos hC]
                  refine ⟨?_, ?_⟩
                  · refine List.chain'_cons.mpr ⟨by simp, ?_⟩
                    refine List.Chain'.cons' hchain ?_
                    intro y hy
                    exact fun hh => headOK_not_ins hhead hF3 y hy hh.symm
                  · rw [← hi1i]
                    simpa [headStateOK] using hBfacts
                · rw [if_neg hC]
                  have hj12 : j2 = j1 := by omega
                  refine ⟨?_, ?_⟩
                  · refine List.Chain'.cons' hchain ?_
                    intro y hy
                    exact fun hh => headOK_not_del hhead hF2 y hy hh.symm
                  · rw [← hi1i]
                    simpa [headStateOK] using hBfacts
              · have hi12 : i2 = i1 := by omega
                rw [if_neg hB]
                by_cases hC : j2 > j1
                · have hCfacts := boolRun_advance ych (ych.length + 1) j1 (hj2 ▸ hC)
                  rw [if_pos hC]
                  refine ⟨?_, ?_⟩
                  · refine List.Chain'.cons' hchain ?_
                    intro y hy
                    exact fun hh => headOK_not_ins hhead hF3 y hy hh.symm
                  · rw [← hj1j]
                    simpa [headStateOK] using hCfacts
                · have hj12 : j2 = j1 := by omega
                  rw [if_neg hC]
                  refine ⟨hchain, ?_⟩
                  have : i2 = i := by omega
                  rw [this] at hhead
                  rw [hj12, hj1j] at hhead
                  exact hhead
      · rw [if_neg hguard] at h
        simp only [Option.some.injEq] at h
        subst h
        exact ⟨List.chain'_nil, trivial⟩

theorem typeChain_noMerge {ops : List DiffOp}
    (h : List.Chain' (fun p q => p.ty ≠ q.ty) ops) :
    List.Chain' noMergePair ops := by
  refine List.Chain'.imp ?_ h
  intro p q hpq
  simp only [noMergePair, canMerge]
  have : (p.ty == q.ty) = false := by
    simpa using hpq
  simp [this]

theorem buildOps_ok_chain {ctx : diffContext} {ops : List DiffOp}
    (h : buildOps ctx = .ok ops) : List.Chain' noMergePair ops := by
  unfold buildOps at h
  split at h
  · rename_i heq
    simp only [Except.ok.injEq] at h
    subst h
    exact typeChain_noMerge
      (buildOpsAux_chain ctx.xchanges ctx.ychanges _ 0 0 _ heq).1
  · cases h

theorem mapOps_ok_shape {mp : indexMapping} {ops l : List DiffOp}
    (h : mp.mapOps ops = .ok l) : ∃ r, l = mergeOps r := by
  unfold indexMapping.mapOps at h
  rw [bind_ok_iff] at h
  obtain ⟨st, _, h⟩ := h
  simp only [pure, Except.pure, Except.ok.injEq] at h
  exact ⟨_, h.symm⟩

theorem histogramDiff_ok_chain {a b : List Element} {opts : histogramOptions}
    {l : List DiffOp} (h : histogramDiff a b opts = .ok l) :
    List.Chain' noMergePair l := by
  unfold histogramDiff at h
  split at h
  · simp only [Except.ok.injEq] at h
    subst h
    exact List.chain'_nil
  · split at h
    · simp only [Except.ok.injEq] at h
      subst h
      exact List.chain'_singleton _
    · split at h
      · simp only [Except.ok.injEq] at h
        subst h
        exact List.chain'_singleton _
      · dsimp only [] at h
        split at h
        · simp only [Except.ok.injEq] at h
          subst h
          exact List.chain'_singleton _
        · rw [bind_ok_iff] at h
          obtain ⟨mid, _, h⟩ := h
          simp only [pure, Except.pure, Except.ok.injEq] at h
          subst h
          exact mergeAdjacentOps_chain _

theorem eliminateWeakAnchors_chain {ops : List DiffOp} {a b : List Element}
    (h : List.Chain' noMergePair ops) :
    List.Chain' noMergePair (eliminateWeakAnchors ops a b) := by
  unfold eliminateWeakAnchors
  split
  · exact h
  · exact mergeAdjacentOps_chain ops

theorem diffCore_ok_chain {cstep : DiffM diffContext}
    {mapping : Option indexMapping} {a2 b2 : List Element} {post : Bool}
    {ops : List DiffOp}
    (h : (cstep >>= fun ctx =>
          buildOps ctx >>= fun ops0 =>
          match mapping with
          | some mp =>
            mp.mapOps ops0 >>= fun y =>
              if post = true then shiftBoundaries y a2 b2 else pure y
          | none =>
            pure ops0 >>= fun y =>
              if post = true then shiftBoundaries y a2 b2 else pure y)
      = Except.ok ops) :
    List.Chain' noMergePair ops := by
  rw [bind_ok_iff] at h
  obtain ⟨ctx1, _, h⟩ := h
  rw [bind_ok_iff] at h
  obtain ⟨ops1, hops1, h⟩ := h
  split at h
  · split at h
    · rw [bind_ok_iff] at h
      obtain ⟨ops2, hops2, h⟩ := h
      exact shiftBoundaries_ok_chain h
    · rw [bind_ok_iff] at h
      obtain ⟨ops2, hops2, h⟩ := h
      simp only [pure, Except.pure, Except.ok.injEq] at h
      subst h
      obtain ⟨r, hr⟩ := mapOps_ok_shape hops2
      rw [hr, mergeOps_eq_mergeAdjacentOps]
      exact mergeAdjacentOps_chain r
  · split at h
    · rw [bind_ok_iff] at h
      obtain ⟨ops2, hops2, h⟩ := h
      exact shiftBoundaries_ok_chain h
    · rw [bind_ok_iff] at h
      obtain ⟨ops2, hops2, h⟩ := h
      simp only [pure, Except.pure, Except.ok.injEq] at hops2
      subst hops2
      simp only [pure, Except.pure, Except.ok.injEq] at h
      subst h
      exact buildOps_ok_chain hops1

theorem DiffElements_ok_chain {a b : List Element} {o : options}
    {ops : List DiffOp} (h : DiffElements a b o = .ok ops) :
    List.Chain' noMergePair ops := by
  unfold DiffElements at h
  split at h
  · simp only [Except.ok.injEq] at h
    subst h
    exact List.chain'_nil
  · split at h
    · simp only [Except.ok.injEq] at h
      subst h
      exact List.chain'_singleton _
    · split at h
      · simp only [Except.ok.injEq] at h
        subst h
        exact List.chain'_singleton _
      · dsimp only [] at h
        generalize (if o.preprocessing = true then filterConfusingElements a b
          else (a, b, none)) = pp at h
        obtain ⟨a2, b2, mapping⟩ := pp
        dsimp only [] at h
        split at h
        · exact diffCore_ok_chain h
        · exact diffCore_ok_chain h

theorem DiffElementsHistogram_ok_chain {a b : List Element} {o : options}
    {ops : List DiffOp} (h : DiffElementsHistogram a b o = .ok ops) :
    List.Chain' noMergePair ops := by
  unfold DiffElementsHistogram at h
  dsimp only [] at h
  rw [bind_ok_iff] at h
  obtain ⟨ops0, hops0, h⟩ := h
  have hchain0 : List.Chain' noMergePair ops0 := histogramDiff_ok_chain hops0
  split at h
  · exact shiftBoundaries_ok_chain h
  · simp only [pure, Except.pure, Except.ok.injEq] at h
    subst h
    split
    · exact eliminateWeakAnchors_chain hchain0
    · exact hchain0

/-! ## Claim theorems -/

/-- Claim C1 (refuted, code bug): the reconstruction property fails.  On
`A = ["y","t"]`, `B = ["y","x","y","t"]` with the default options, the
boundary-shifting postprocessor moves an Insert without adjusting its Equal
neighbour, and applying the returned ops to A yields `[y,y,x,t]`, not B. -/
theorem c1_reconstruction_counterexample :
    DiffElements (toElements ["y", "t"]) (toElements ["y", "x", "y", "t"])
        defaultOptions
      = .ok [⟨.Equal, 0, 1, 0, 1⟩, ⟨.Insert, 1, 1, 0, 2⟩, ⟨.Equal, 1, 2, 3, 4⟩]
    ∧ applyOps (toElements ["y", "t"]) (toElements ["y", "x", "y", "t"])
        [⟨.Equal, 0, 1, 0, 1⟩, ⟨.Insert, 1, 1, 0, 2⟩, ⟨.Equal, 1, 2, 3, 4⟩]
      ≠ toElements ["y", "x", "y", "t"] := by decide

/-- Claim C2 (refuted, code bug): the pipeline panics.  On
`A = ["u","p","q"]`, `B = ["u","r","s"]` with the default options, the
preprocessor filters both sequences down to `["u"]`, the remapped ops carry
original indices 0..3, and the postprocessor indexes the filtered
one-element sequences out of bounds. -/
theorem c2_oob_panic :
    DiffElements (toElements ["u", "p", "q"]) (toElements ["u", "r", "s"])
      defaultOptions = .error .oob := by decide

/-- Claim C3 (refuted, code bug): coverage and contiguity fail.  On
`A = ["","x","x"]`, `B = ["","x"]` with the default options, the shifted op
list leaves A position 2 uncovered, covers A position 1 twice, and is not
contiguous. -/
theorem c3_coverage_counterexample :
    DiffElements (toElements ["", "x", "x"]) (toElements ["", "x"])
        defaultOptions
      = .ok [⟨.Equal, 0, 2, 0, 2⟩, ⟨.Delete, 1, 2, 2, 2⟩]
    ∧ coverCountA [⟨.Equal, 0, 2, 0, 2⟩, ⟨.Delete, 1, 2, 2, 2⟩] 2 = 0
    ∧ coverCountA [⟨.Equal, 0, 2, 0, 2⟩, ⟨.Delete, 1, 2, 2, 2⟩] 1 = 2
    ∧ contiguous [⟨.Equal, 0, 2, 0, 2⟩, ⟨.Delete, 1, 2, 2, 2⟩] = false := by
  decide

/-- Claim C5, counterexample to the frozen wording: on a frame whose
y-dimension is strictly longer (n = 1, m = 5) with no matching start pair,
the greedy fallback advances the split in the x dimension, not in the longer
dimension. -/
theorem c5_longer_dimension_counterexample :
    (5 : Int) - 0 > 1 - 0
    ∧ slideForward c5ctx.xvec c5ctx.yvec 0 0 1 5 0 0 2 = .ok (0, 0)
    ∧ greedyFallback c5ctx 0 1 0 5 = .ok ⟨1, 0, false, false⟩ := by decide

/-- Claim C5 as amended: the greedy fallback splits after the matching run
found at the start of the frame; when no elements match there, it advances
the split one step in the x dimension whenever the frame's x-extent is
positive (regardless of which dimension is longer), and otherwise one step
in y; in every case both halves are marked non-minimal. -/
theorem c5_greedy_split (ctx : diffContext) (xoff xlim yoff ylim x y : Int)
    (h : slideForward ctx.xvec ctx.yvec xoff yoff (xlim - xoff) (ylim - yoff)
          0 0 ((xlim - xoff).toNat + 1) = .ok (x, y)) :
    greedyFallback ctx xoff xlim yoff ylim =
      .ok (if x > 0 then ⟨xoff + x, yoff + y, false, false⟩
        else if xlim - xoff > 0 then ⟨xoff + 1, yoff, false, false⟩
        else ⟨xoff, yoff + 1, false, false⟩) := by
  unfold greedyFallback
  dsimp only []
  rw [h]
  by_cases hx : x > 0
  · simp [hx, Bind.bind, Except.bind, pure, Except.pure]
  · by_cases hn : xlim - xoff > 0
    · simp [hx, hn, Bind.bind, Except.bind, pure, Except.pure]
    · simp [hx, hn, Bind.bind, Except.bind, pure, Except.pure]

/-- Witness for C5's amended theorem: on `["m","n"]` against `["m","k"]`
over the full frame, one pair matches at the start and the split lands
right after it. -/
theorem c5_greedy_split_witness :
    greedyFallback c5wctx 0 2 0 2 = .ok ⟨1, 1, false, false⟩ := by
  have h := c5_greedy_split c5wctx 0 2 0 2 1 1 (by decide)
  simpa using h

set_option maxRecDepth 8000 in
/-- Claim C6 (refuted, code bug): `forceMinimal` does not minimise.  On
`c6A`/`c6B`, minimal mode (which keeps the preprocessor on) returns five
ops, while plain Myers without preprocessing returns three ops on the same
input, so the minimal-mode count is not `≤` every other option set's. -/
theorem c6_minimal_counterexample :
    DiffElements c6A c6B (applyOpts [.withMinimal true, .withPostprocessing false])
      = .ok [⟨.Delete, 0, 8, 0, 0⟩, ⟨.Insert, 8, 8, 0, 8⟩, ⟨.Equal, 8, 10, 8, 10⟩,
          ⟨.Delete, 10, 11, 10, 10⟩, ⟨.Insert, 11, 11, 10, 11⟩]
    ∧ DiffElements c6A c6B
        (applyOpts [.withPreprocessing false, .withPostprocessing false])
      = .ok [⟨.Equal, 0, 10, 0, 10⟩, ⟨.Delete, 10, 11, 10, 10⟩,
          ⟨.Insert, 11, 11, 10, 11⟩]
    ∧ ¬ ([(⟨.Delete, 0, 8, 0, 0⟩ : DiffOp), ⟨.Insert, 8, 8, 0, 8⟩,
          ⟨.Equal, 8, 10, 8, 10⟩, ⟨.Delete, 10, 11, 10, 10⟩,
          ⟨.Insert, 11, 11, 10, 11⟩].length
        ≤ [(⟨.Equal, 0, 10, 0, 10⟩ : DiffOp), ⟨.Delete, 10, 11, 10, 10⟩,
          ⟨.Insert, 11, 11, 10, 11⟩].length) := by decide

/-- Claim C7 (confirmed): on `A = ["the","quick","fox"]`,
`B = ["the","slow","fox"]`, the histogram driver returns exactly
Equal/Delete/Insert/Equal with the claimed ranges; the anchor scan over the
trimmed middle (`["quick"]` vs `["slow"]`) selects no anchor at all (index
-1), so in particular "the" is never the middle anchor; and the final Equal
op's A-range is exactly `["fox"]`. -/
theorem c7_fox_histogram :
    DiffElementsHistogram (toElements ["the", "quick", "fox"])
        (toElements ["the", "slow", "fox"]) defaultOptions
      = .ok [⟨.Equal, 0, 1, 0, 1⟩, ⟨.Delete, 1, 2, 1, 1⟩,
          ⟨.Insert, 2, 2, 1, 2⟩, ⟨.Equal, 2, 3, 2, 3⟩]
    ∧ (bestAnchorScan (toElements ["quick"]) (toElements ["slow"])
        defaultHistogramOptions).2.1 = -1
    ∧ sliceGo (toElements ["the", "quick", "fox"]) 2 3 = toElements ["fox"]
    := by decide

/-- Claim C8 (confirmed): every op list either driver returns is in merged
canonical form: no two adjacent ops are mergeable (same type, touching in
both coordinates), and running `mergeAdjacentOps` on it is the identity. -/
theorem c8_merge_identity (a b : List Element) (o : options)
    (ops : List DiffOp)
    (h : DiffElements a b o = .ok ops ∨ DiffElementsHistogram a b o = .ok ops) :
    List.Chain' noMergePair ops ∧ mergeAdjacentOps ops = ops := by
  have hc : List.Chain' noMergePair ops := by
    cases h with
    | inl h => exact DiffElements_ok_chain h
    | inr h => exact DiffElementsHistogram_ok_chain h
  exact ⟨hc, mergeAdjacentOps_of_chain hc⟩

/-- Witness for C8 at a concrete run of `DiffElements`. -/
theorem c8_merge_identity_witness :
    List.Chain' noMergePair [(⟨.Equal, 0, 1, 0, 1⟩ : DiffOp)]
    ∧ mergeAdjacentOps [(⟨.Equal, 0, 1, 0, 1⟩ : DiffOp)]
      = [⟨.Equal, 0, 1, 0, 1⟩] :=
  c8_merge_identity (toElements ["a"]) (toElements ["a"]) defaultOptions _
    (Or.inl (by decide))

/-- Claim C9 (confirmed): `DiffElementsHistogram` reads only the
`postprocessing` and `anchorElimination` options, so two option records that
agree on those two fields — in particular records differing only in
`useHeuristic`, `forceMinimal`, `costLimit` or `preprocessing` — produce
identical outputs on every input. -/
theorem c9_histogram_ignores_myers_options (a b : List Element)
    (o1 o2 : options) (hpost : o1.postprocessing = o2.postprocessing)
    (hanchor : o1.anchorElimination = o2.anchorElimination) :
    DiffElementsHistogram a b o1 = DiffElementsHistogram a b o2 := by
  unfold DiffElementsHistogram
  simp only [hpost, hanchor]

/-- Witness for C9: default options against a record that flips
`forceMinimal`, `useHeuristic`, `costLimit` and `preprocessing`. -/
theorem c9_histogram_ignores_myers_options_witness :
    DiffElementsHistogram (toElements ["x"]) (toElements ["y"]) defaultOptions
      = DiffElementsHistogram (toElements ["x"]) (toElements ["y"])
        (applyOpts [.withMinimal true, .withCostLimit 3,
          .withPreprocessing false, .withHeuristic false]) :=
  c9_histogram_ignores_myers_options _ _ _ _ (by decide) (by decide)

/-- Claim C10 (confirmed): `StringElement.Equal` returns `false` whenever
the other element is not a `StringElement`, and plain string equality when
it is — so elements of different concrete types never compare equal,
whatever their hashes. -/
theorem c10_string_equal_guard (s t : String) (e : Element)
    (h : e.isStr = false) :
    Element.equal (.str s) e = false
    ∧ Element.equal (.str s) (.str t) = (s == t) := by
  constructor
  · cases e with
    | str u => simp [Element.isStr] at h
    | other n => rfl
  · rfl

/-- Witness for C10: a foreign element carrying exactly the hash of
`StringElement "hello"` still compares unequal to it. -/
theorem c10_string_equal_guard_witness :
    Element.hash (.str "hello")
       = Element.hash (.other (Element.hash (.str "hello")))
    ∧ (Element.equal (.str "hello")
          (.other (Element.hash (.str "hello"))) = false
      ∧ Element.equal (.str "hello") (.str "hello") = ("hello" == "hello")) :=
  ⟨by decide, c10_string_equal_guard "hello" "hello" _ (by decide)⟩

end Diffx
